import Mathlib

/-!
Verification of the phonon DOS module (phonon/dos.py).

The module turns discrete (frequency, weight) samples on a reciprocal-space
mesh into continuous density-of-states curves, either by smearing-kernel
convolution or by the linear tetrahedron method, and optionally fits a Debye
a·f² model to the low-frequency tail.

Embedding conventions:
* numpy float arrays are embedded as rational-valued data (`ℚ`), with
  matrices as functions out of `Fin`; the frequency grid, whose length is
  data dependent, is a `List ℚ`.
* The smearing kernels (NormalDistribution, CauchyDistribution) store the
  sigma (resp. gamma) captured at construction; their `calc` methods involve
  transcendental functions (exp, pi), so every computation that evaluates a
  kernel is parameterized by an interpretation
  `interp : SmearingFunction → ℚ → ℚ` mapping the selected kernel object and
  an offset to a density value.
* Python `raise` is embedded as `Except`.
-/

namespace PhononDos

/-- The smearing-kernel objects of the source: `NormalDistribution(sigma)`
and `CauchyDistribution(gamma)`.  Each stores the parameter value passed at
construction time (the source passes `self._sigma`, which may be `None`). -/
inductive SmearingFunction where
  | normal (sigma : Option ℚ)
  | cauchy (gamma : Option ℚ)
deriving DecidableEq

/-- `Dos.set_smearing_function`: the name 'Cauchy' selects a
`CauchyDistribution(self._sigma)`; any other name selects a
`NormalDistribution(self._sigma)`.  The current sigma is captured in the
constructed object. -/
def mkSmearingFunction (function_name : String) (sigma : Option ℚ) : SmearingFunction :=
  if function_name = "Cauchy" then .cauchy sigma else .normal sigma

/-- numpy vector–matrix product `np.dot(v, M)` for `v` of length G and `M` of
shape G×B: component b is `Σ_g v g * M g b`. -/
def npdot {G B : ℕ} (v : Fin G → ℚ) (M : Fin G → Fin B → ℚ) : Fin B → ℚ :=
  fun b => ∑ g, v g * M g b

/-- numpy `np.arange(start, stop, step)` for a positive step: the points
`start + i*step` for `0 ≤ i < ⌈(stop - start)/step⌉`.  numpy raises on a zero
step and the module never passes a negative one; those cases are modelled as
the empty list. -/
def np_arange (start stop step : ℚ) : List ℚ :=
  if 0 < step then
    (List.range (⌈(stop - start) / step⌉.toNat)).map (fun i : ℕ => start + (i : ℚ) * step)
  else []

/-- numpy `.min()` of a one-dimensional array (the source only applies it to
nonempty data; the empty case, on which numpy raises, is mapped to 0). -/
def listMin : List ℚ → ℚ
  | [] => 0
  | x :: xs => xs.foldl min x

/-- numpy `.max()` of a one-dimensional array (empty case as in `listMin`). -/
def listMax : List ℚ → ℚ
  | [] => 0
  | x :: xs => xs.foldl max x

/-- The G×B frequency matrix flattened row by row, so that `.min()` and
`.max()` over the matrix become `listMin` / `listMax`. -/
def freqFlat {G B : ℕ} (frequencies : Fin G → Fin B → ℚ) : List ℚ :=
  ((List.finRange G).map (fun g => (List.finRange B).map (frequencies g))).flatten

/-- Modelled from the spec: the tetrahedron machinery behind
`TetrahedronMesh` (phonopy.phonon.tetrahedron_mesh) and the C weight kernel
is not part of src/.  Per the spec it yields, for each grid point and band,
an integration weight at each queried frequency point; we carry that
black-box weight function `iw` together with the mesh data the source passes
to the `TetrahedronMesh` constructor. -/
structure TetrahedronMeshData (G B : ℕ) where
  frequencies : Fin G → Fin B → ℚ
  meshNumbers : ℕ × ℕ × ℕ
  iw : Fin G → Fin B → ℚ → ℚ

/-- The mesh object consumed by `Dos.__init__`: per-grid-point band
frequencies (G×B), grid-point weights (length G), the three mesh dimensions,
and complex eigenvectors.  An eigenvector component is a pair (re, im); the
component index is kept as a plain `ℕ` (the source indexes components
`3*atom + axis`).  `integrationWeight` is the black-box tetrahedron
integration weight reachable from the mesh data (see
`TetrahedronMeshData`). -/
structure MeshObject (G B : ℕ) where
  frequencies : Fin G → Fin B → ℚ
  weights : Fin G → ℚ
  meshNumbers : ℕ × ℕ × ℕ
  eigenvectors : Fin G → ℕ → Fin B → ℚ × ℚ
  integrationWeight : Fin G → Fin B → ℚ → ℚ

/-- The state held by a `TotalDos` object (fields of `Dos.__init__` and
`TotalDos.__init__`).  `freqDebyeCubed` stores the cube of
`self._freq_Debye`: the source stores `(9*num_atoms/a)**(1/3)`, whose cube
root is irrational, so the embedding keeps the (rational) radicand. -/
structure TotalDosState (G B : ℕ) where
  frequencies : Fin G → Fin B → ℚ
  weights : Fin G → ℚ
  tetrahedronMesh : Option (TetrahedronMeshData G B)
  sigma : Option ℚ
  frequencyPoints : List ℚ
  smearingFunction : SmearingFunction
  dos : Option (List ℚ)
  freqDebyeCubed : Option ℚ
  debyeFitCoef : Option ℚ
  openmpThm : Bool

/-- The computational core of `Dos.set_draw_area`, acting on the flattened
frequency data: defaults sigma to (f_max - f_min)/100 when unset, margins
each side by 10*sigma unless overridden, defaults the pitch to the margined
range / 200, and samples `np.arange(f_min, f_max + f_delta * 0.1, f_delta)`.
Returns the (now set) sigma and the frequency grid. -/
def set_draw_area_core (fl : List ℚ) (sigma : Option ℚ)
    (freq_min freq_max freq_pitch : Option ℚ) : ℚ × List ℚ :=
  let f_min0 := listMin fl
  let f_max0 := listMax fl
  let s := match sigma with
    | none => (f_max0 - f_min0) / 100
    | some v => v
  let f_min := match freq_min with
    | none => f_min0 - s * 10
    | some v => v
  let f_max := match freq_max with
    | none => f_max0 + s * 10
    | some v => v
  let f_delta := match freq_pitch with
    | none => (f_max - f_min) / 200
    | some v => v
  (s, np_arange f_min (f_max + f_delta * (1 / 10)) f_delta)

namespace TotalDos

variable {G B : ℕ}

/-- `Dos.set_sigma`: assigns the sigma attribute and nothing else. -/
def set_sigma (st : TotalDosState G B) (sigma : Option ℚ) : TotalDosState G B :=
  {st with sigma := sigma}

/-- `Dos.set_smearing_function` on the `TotalDos` state. -/
def set_smearing_function (st : TotalDosState G B) (function_name : String) :
    TotalDosState G B :=
  {st with smearingFunction := mkSmearingFunction function_name st.sigma}

/-- `Dos.set_draw_area` on the `TotalDos` state: recomputes sigma (when
unset) and the frequency grid via `set_draw_area_core`. -/
def set_draw_area (st : TotalDosState G B)
    (freq_min freq_max freq_pitch : Option ℚ) : TotalDosState G B :=
  let sg := set_draw_area_core (freqFlat st.frequencies) st.sigma freq_min freq_max freq_pitch
  {st with sigma := some sg.1, frequencyPoints := sg.2}

/-- `TotalDos.__init__` (including `Dos.__init__`): copies frequencies and
weights out of the mesh object, builds the tetrahedron mesh exactly when
`use_tetrahedron_method` is set and sigma is `None`, then runs
`set_draw_area()` and `set_smearing_function('Normal')`; the DOS and
Debye-fit results start out `None` and `_openmp_thm` is `True`. -/
def init (mesh : MeshObject G B) (sigma : Option ℚ) (use_tetrahedron_method : Bool) :
    TotalDosState G B :=
  let st0 : TotalDosState G B :=
    { frequencies := mesh.frequencies
      weights := mesh.weights
      tetrahedronMesh :=
        if use_tetrahedron_method && sigma.isNone then
          some { frequencies := mesh.frequencies
                 meshNumbers := mesh.meshNumbers
                 iw := mesh.integrationWeight }
        else none
      sigma := sigma
      frequencyPoints := []
      smearingFunction := .normal sigma
      dos := none
      freqDebyeCubed := none
      debyeFitCoef := none
      openmpThm := true }
  set_smearing_function (set_draw_area st0 none none none) "Normal"

/-- `TotalDos._get_density_of_states_at_freq`:
`np.sum(np.dot(weights, calc(frequencies - f))) / np.sum(weights)`, with the
kernel evaluation abstracted into `calcF`. -/
def get_density_of_states_at_freq (weights : Fin G → ℚ)
    (frequencies : Fin G → Fin B → ℚ) (calcF : ℚ → ℚ) (f : ℚ) : ℚ :=
  (∑ b, npdot weights (fun g b2 => calcF (frequencies g b2 - f)) b) / ∑ g, weights g

end TotalDos

/-- Modelled from the spec: the C weight primitive
`phonopy._phonopy.tetrahedron_method_dos` is not part of src/.  Per the spec
it fills the (grid point, band, frequency point) entry of its output array
with the mesh-point weight times the tetrahedron integration weight of that
band and grid point at that frequency point (channel dimension dropped, the
coefficient array defaulting to ones when `coef is None`). -/
def phonoc_tetrahedron_method_dos {G B : ℕ} (weights : Fin G → ℚ)
    (iw : Fin G → Fin B → ℚ → ℚ) : Fin G → Fin B → ℚ → ℚ :=
  fun g b f => weights g * iw g b f

/-- `run_tetrahedron_method_dos` with `coef=None` (the branch used by
`TotalDos`): given the array filled by the C primitive, returns
`dos[:, :, :, 0].sum(axis=0).sum(axis=0) / np.prod(mesh)` at each frequency
point — the double sum over grid points and bands divided by the product of
the three mesh dimensions (and not by the sum of the grid-point weights). -/
def run_tetrahedron_method_dos {G B : ℕ} (mesh : ℕ × ℕ × ℕ)
    (frequency_points : List ℚ) (dosArr : Fin G → Fin B → ℚ → ℚ) : List ℚ :=
  frequency_points.map
    (fun f => (∑ g, ∑ b, dosArr g b f) / ((mesh.1 * mesh.2.1 * mesh.2.2 : ℕ) : ℚ))

namespace TotalDos

variable {G B : ℕ}

/-- `TotalDos.run`: smearing path when no tetrahedron mesh is held, else the
bulk C path (`_run_tetrahedron_method_dos`) when `_openmp_thm` is set, else
the streaming path accumulating `np.sum(iw * weights[i], axis=1)` per grid
point. -/
def run (interp : SmearingFunction → ℚ → ℚ) (st : TotalDosState G B) :
    TotalDosState G B :=
  match st.tetrahedronMesh with
  | none =>
    {st with dos := some (st.frequencyPoints.map
      (get_density_of_states_at_freq st.weights st.frequencies
        (interp st.smearingFunction)))}
  | some tm =>
    if st.openmpThm then
      {st with dos := some (run_tetrahedron_method_dos tm.meshNumbers
        st.frequencyPoints (phonoc_tetrahedron_method_dos st.weights tm.iw))}
    else
      {st with dos := some ((List.finRange G).foldl
        (fun acc g => List.zipWith (· + ·) acc
          (st.frequencyPoints.map (fun f => ∑ b, tm.iw g b f * st.weights g)))
        (st.frequencyPoints.map (fun _ => (0 : ℚ))))}

end TotalDos

/-- Python `int()` conversion of a float: truncation toward zero. -/
def pyint (q : ℚ) : ℤ := if 0 ≤ q then ⌊q⌋ else ⌈q⌉

/-- Python list slicing `lst[0:n]` for an integer stop `n`: a nonnegative
stop takes the first `n` elements (clamped to the length), while a negative
stop counts from the end and drops the last `|n|` elements (everything when
`|n|` reaches the length). -/
def pytake {α : Type} (n : ℤ) (l : List α) : List α :=
  l.take (if n < 0 then ((l.length : ℤ) + n).toNat else n.toNat)

/-- The sum of squared residuals of the model `dos(f) = a·f²` on the data
points `pts` (pairs (frequency, dos value)). -/
def errSq (pts : List (ℚ × ℚ)) (a : ℚ) : ℚ :=
  (pts.map (fun p => (p.2 - a * p.1 ^ 2) ^ 2)).sum

/-- The closed-form least-squares coefficient for `dos(f) = a·f²` on `pts`:
`(Σ x²·y) / (Σ x⁴)`. -/
def fitA (pts : List (ℚ × ℚ)) : ℚ :=
  (pts.map (fun p => p.1 ^ 2 * p.2)).sum / (pts.map (fun p => p.1 ^ 4)).sum

/-- Modelled from the spec: `scipy.optimize.curve_fit` is an external
least-squares fitter, not part of src/.  For the one-parameter model
`a * freq**2` the least-squares optimum is `fitA`; curve_fit refuses a data
set with fewer points than parameters (here one), which is its only failure
mode on this linear-in-parameter model. -/
def curve_fit_Debye (pts : List (ℚ × ℚ)) : Except Unit ℚ :=
  if pts.length < 1 then .error () else .ok (fitA pts)

namespace TotalDos

variable {G B : ℕ}

/-- The argument of the `int()` call computing `N_fit` in
`TotalDos.set_Debye_frequency`: `len(grid)/4` by default, else
`freq_max_fit / (freq_max - freq_min) * len(grid)` with `freq_max` /
`freq_min` the extremes of the frequency grid. -/
def debyeArg (st : TotalDosState G B) (freq_max_fit : Option ℚ) : ℚ :=
  match freq_max_fit with
  | none => (st.frequencyPoints.length : ℚ) / 4
  | some c =>
    c / (listMax st.frequencyPoints - listMin st.frequencyPoints) *
      st.frequencyPoints.length

/-- `N_fit` as computed by the source (`int()` truncates toward zero). -/
def debyeNfit (st : TotalDosState G B) (freq_max_fit : Option ℚ) : ℤ :=
  pyint (debyeArg st freq_max_fit)

/-- `TotalDos.set_Debye_frequency`: fits `a * freq**2` to the first `N_fit`
points of (grid, dos) via curve_fit and stores the fit coefficient and the
Debye frequency `(3*3*num_atoms/a)**(1/3)` (kept as its cube, see
`TotalDosState.freqDebyeCubed`).  Reading `self._dos` when no DOS has been
computed is an error, as is a failing fit. -/
def set_Debye_frequency (st : TotalDosState G B) (num_atoms : ℕ)
    (freq_max_fit : Option ℚ) : Except Unit (TotalDosState G B) :=
  match st.dos with
  | none => .error ()
  | some d =>
    let N := debyeNfit st freq_max_fit
    match curve_fit_Debye ((pytake N st.frequencyPoints).zip (pytake N d)) with
    | .error e => .error e
    | .ok a2 =>
      .ok {st with freqDebyeCubed := some (3 * 3 * num_atoms / a2)
                   debyeFitCoef := some a2}

end TotalDos

/-- The state held by a `PartialDos` object: the `Dos` fields plus the
projection-coefficient array `eigvecs2` (grid point × channel × band) and
the result matrix, stored as one row (aligned with the frequency grid) per
channel. -/
structure PartialDosState (G B C : ℕ) where
  frequencies : Fin G → Fin B → ℚ
  weights : Fin G → ℚ
  tetrahedronMesh : Option (TetrahedronMeshData G B)
  sigma : Option ℚ
  frequencyPoints : List ℚ
  smearingFunction : SmearingFunction
  eigvecs2 : Fin G → Fin C → Fin B → ℚ
  partialDos : Option (Fin C → List ℚ)
  openmpThm : Bool

/-- `|z|²` of a complex eigenvector component given as (re, im). -/
def cabs2 (z : ℚ × ℚ) : ℚ := z.1 ^ 2 + z.2 ^ 2

namespace PartialDos

variable {G B C : ℕ}

/-- `PartialDos.__init__`, default projection branch (no `xyz_projection`,
no `direction`): one channel per atom (`num_atom = B // 3`), with
`eigvecs2[g, a, b]` the sum of `|·|²` of the components `3a`, `3a+1`,
`3a+2`. -/
def eigvecs2_default (mesh : MeshObject G B) : Fin G → Fin (B / 3) → Fin B → ℚ :=
  fun g a b =>
    cabs2 (mesh.eigenvectors g (3 * a) b) + cabs2 (mesh.eigenvectors g (3 * a + 1) b) +
      cabs2 (mesh.eigenvectors g (3 * a + 2) b)

/-- `PartialDos.__init__` with a direction vector: the source scales the
vector by the inverse of its Euclidean norm (an irrational factor), so `d`
here stands for that normalized direction; the channel value is
`|d₁·e_x + d₂·e_y + d₃·e_z|²` with complex components. -/
def eigvecs2_direction (mesh : MeshObject G B) (d : ℚ × ℚ × ℚ) :
    Fin G → Fin (B / 3) → Fin B → ℚ :=
  fun g a b =>
    let ex := mesh.eigenvectors g (3 * a) b
    let ey := mesh.eigenvectors g (3 * a + 1) b
    let ez := mesh.eigenvectors g (3 * a + 2) b
    cabs2 (ex.1 * d.1 + ey.1 * d.2.1 + ez.1 * d.2.2,
           ex.2 * d.1 + ey.2 * d.2.1 + ez.2 * d.2.2)

/-- `PartialDos.__init__` with `xyz_projection=True`: every Cartesian
component is kept as its own channel, `eigvecs2 = np.abs(eigenvectors)**2`. -/
def eigvecs2_xyz (mesh : MeshObject G B) : Fin G → Fin B → Fin B → ℚ :=
  fun g c b => cabs2 (mesh.eigenvectors g c b)

/-- `PartialDos.__init__` for the per-atom modes (`xyz_projection=False`):
`Dos.__init__` followed by the projection-coefficient computation; the
channel count is `num_atom = B // 3`. -/
def init (mesh : MeshObject G B) (sigma : Option ℚ) (use_tetrahedron_method : Bool)
    (direction : Option (ℚ × ℚ × ℚ)) : PartialDosState G B (B / 3) :=
  let sg := set_draw_area_core (freqFlat mesh.frequencies) sigma none none none
  { frequencies := mesh.frequencies
    weights := mesh.weights
    tetrahedronMesh :=
      if use_tetrahedron_method && sigma.isNone then
        some { frequencies := mesh.frequencies
               meshNumbers := mesh.meshNumbers
               iw := mesh.integrationWeight }
      else none
    sigma := some sg.1
    frequencyPoints := sg.2
    smearingFunction := mkSmearingFunction "Normal" (some sg.1)
    eigvecs2 :=
      match direction with
      | none => eigvecs2_default mesh
      | some d => eigvecs2_direction mesh d
    partialDos := none
    openmpThm := true }

/-- `PartialDos._run_smearing_method`: with weights normalized by their sum,
`pdos[j, i] = np.dot(weights, eigvecs2[:, j, :] * amplitudes).sum()` where
`amplitudes = calc(frequencies - freq_i)`. -/
def run_smearing_method (interp : SmearingFunction → ℚ → ℚ)
    (st : PartialDosState G B C) : Fin C → List ℚ :=
  let wnorm := fun g => st.weights g / ∑ g2, st.weights g2
  fun j => st.frequencyPoints.map (fun f =>
    ∑ b, npdot wnorm
      (fun g b2 => st.eigvecs2 g j b2 * interp st.smearingFunction (st.frequencies g b2 - f)) b)

/-- `PartialDos._run_tetrahedron_method`: per grid point, accumulate
`np.dot(iw * w, eigvecs2[i].T).T`, i.e. add
`Σ_b iw[f, b] * w * eigvecs2[i, j, b]` into row j. -/
def run_tetrahedron_method (st : PartialDosState G B C)
    (tm : TetrahedronMeshData G B) : Fin C → List ℚ :=
  fun j => (List.finRange G).foldl
    (fun acc g => List.zipWith (· + ·) acc
      (st.frequencyPoints.map (fun f => ∑ b, tm.iw g b f * st.weights g * st.eigvecs2 g j b)))
    (st.frequencyPoints.map (fun _ => (0 : ℚ)))

/-- `PartialDos.run`: smearing path when no tetrahedron mesh is held, else
the streaming tetrahedron path (the bulk path is commented out in the
source). -/
def run (interp : SmearingFunction → ℚ → ℚ) (st : PartialDosState G B C) :
    PartialDosState G B C :=
  match st.tetrahedronMesh with
  | none => {st with partialDos := some (run_smearing_method interp st)}
  | some tm => {st with partialDos := some (run_tetrahedron_method st tm)}

end PartialDos

/-- The errors raised by the index-grouping loops of `get_pdos` and
`plot_partial_dos`; both report the offending index in 1-based form
(`i + 1`). -/
inductive IndexErr where
  | outOfRange (reported : ℤ)
  | negativeIndex (reported : ℤ)
deriving DecidableEq

/-- The error produced for an invalid index `i`: the out-of-range check
(`i > natoms - 1`) is made first, the negativity check second. -/
def mkIndexError (natoms : ℕ) (i : ℤ) : IndexErr :=
  if i > (natoms : ℤ) - 1 then .outOfRange (i + 1) else .negativeIndex (i + 1)

/-- Elementwise sum of two DOS rows (`numpy +` on equal-length arrays). -/
def addRow (acc row : List ℚ) : List ℚ := List.zipWith (· + ·) acc row

/-- The inner loop shared by `get_pdos` and `plot_partial_dos`: running sum
of the selected rows of `partial_dos`, checking each index before use.  The
accumulator starts as the scalar `0`, which numpy broadcasts on the first
addition; that start state is the `none` case. -/
def sumGroup (partial_dos : List (List ℚ)) (acc : Option (List ℚ)) :
    List ℤ → Except IndexErr (List ℚ)
  | [] => .ok (acc.getD [])
  | i :: rest =>
    if i > (partial_dos.length : ℤ) - 1 then .error (.outOfRange (i + 1))
    else if i < 0 then .error (.negativeIndex (i + 1))
    else
      sumGroup partial_dos
        (some (match acc with
               | none => partial_dos.getD i.toNat []
               | some a => addRow a (partial_dos.getD i.toNat []))) rest

/-- `get_pdos`: for each index grouping, the summed PDOS row of the selected
channels; any invalid index aborts the whole call (a Python `raise`), so no
partial list of aggregated rows is returned. -/
def get_pdos (partial_dos : List (List ℚ)) :
    List (List ℤ) → Except IndexErr (List (List ℚ))
  | [] => .ok []
  | g :: gs =>
    match sumGroup partial_dos none g with
    | .error e => .error e
    | .ok v =>
      match get_pdos partial_dos gs with
      | .error e => .error e
      | .ok vs => .ok (v :: vs)

/-- The index-grouping core of `plot_partial_dos`: the same per-index
validation and per-group summation as `get_pdos` (the drawing calls are
I/O and out of scope); the value returned is the list of curves handed to
`ax.plot`. -/
def plot_partial_dos_curves (partial_dos : List (List ℚ)) :
    List (List ℤ) → Except IndexErr (List (List ℚ))
  | [] => .ok []
  | g :: gs =>
    match sumGroup partial_dos none g with
    | .error e => .error e
    | .ok v =>
      match plot_partial_dos_curves partial_dos gs with
      | .error e => .error e
      | .ok vs => .ok (v :: vs)

/-- The spec's default smearing width: `(max(frequencies) - min(frequencies)) / 100`. -/
def defaultSigma (fl : List ℚ) : ℚ := (listMax fl - listMin fl) / 100

/-- The spec's lower grid end: `min(frequencies) - 10σ` with the default sigma. -/
def marginedMin (fl : List ℚ) : ℚ := listMin fl - defaultSigma fl * 10

/-- The spec's upper grid end: `max(frequencies) + 10σ` with the default sigma. -/
def marginedMax (fl : List ℚ) : ℚ := listMax fl + defaultSigma fl * 10

/-- The spec's default pitch: the margined range divided by 200. -/
def defaultPitch (fl : List ℚ) : ℚ := (marginedMax fl - marginedMin fl) / 200

/-- The data points handed to the fitter by `set_Debye_frequency`: the
Python slices `frequency_points[0:N_fit]` and `dos[0:N_fit]` zipped — the
first `N_fit` entries of each when `N_fit` is nonnegative, everything but
the last `|N_fit|` entries when it is negative. -/
def TotalDos.debyeFitPoints {G B : ℕ} (st : TotalDosState G B)
    (freq_max_fit : Option ℚ) (d : List ℚ) : List (ℚ × ℚ) :=
  (pytake (TotalDos.debyeNfit st freq_max_fit) st.frequencyPoints).zip
    (pytake (TotalDos.debyeNfit st freq_max_fit) d)

/-! ### Concrete instances used to exercise the theorems below -/

/-- A concrete kernel interpretation (a constant density). -/
def interpOne : SmearingFunction → ℚ → ℚ := fun _ _ => 1

/-- A 1-grid-point, 1-band smearing-mode state. -/
def stWitA : TotalDosState 1 1 where
  frequencies := fun _ _ => 3
  weights := fun _ => 2
  tetrahedronMesh := none
  sigma := some 1
  frequencyPoints := [0]
  smearingFunction := .normal (some 1)
  dos := none
  freqDebyeCubed := none
  debyeFitCoef := none
  openmpThm := true

/-- Concrete tetrahedron-mesh data on a 2×2×2 mesh with unit integration
weights. -/
def tmWitB : TetrahedronMeshData 1 1 where
  frequencies := fun _ _ => 3
  meshNumbers := (2, 2, 2)
  iw := fun _ _ _ => 1

/-- A 1-grid-point, 1-band tetrahedron-mode state. -/
def stWitB : TotalDosState 1 1 where
  frequencies := fun _ _ => 3
  weights := fun _ => 2
  tetrahedronMesh := some tmWitB
  sigma := none
  frequencyPoints := [0]
  smearingFunction := .normal none
  dos := none
  freqDebyeCubed := none
  debyeFitCoef := none
  openmpThm := true

/-- A 1-grid-point, 1-band, 1-channel partial-DOS state with normalized
projection coefficients. -/
def psWitC : PartialDosState 1 1 1 where
  frequencies := fun _ _ => 3
  weights := fun _ => 2
  tetrahedronMesh := none
  sigma := some 1
  frequencyPoints := [0]
  smearingFunction := .normal (some 1)
  eigvecs2 := fun _ _ _ => 1
  partialDos := none
  openmpThm := true

/-- The total-DOS state matching `psWitC`. -/
def tsWitC : TotalDosState 1 1 where
  frequencies := fun _ _ => 3
  weights := fun _ => 2
  tetrahedronMesh := none
  sigma := some 1
  frequencyPoints := [0]
  smearingFunction := .normal (some 1)
  dos := none
  freqDebyeCubed := none
  debyeFitCoef := none
  openmpThm := true

/-- A 1-grid-point, 2-band state with unset sigma and frequencies 0 and 100,
for exercising the default grid construction. -/
def stWitD : TotalDosState 1 2 where
  frequencies := fun _ b => if b = 0 then 0 else 100
  weights := fun _ => 1
  tetrahedronMesh := none
  sigma := none
  frequencyPoints := []
  smearingFunction := .normal none
  dos := none
  freqDebyeCubed := none
  debyeFitCoef := none
  openmpThm := true

/-- A state with an 8-point grid and a computed DOS, for exercising the
Debye fit (N_fit = 2, fit points (1, 2) and (2, 8), least-squares a = 2). -/
def stWitE : TotalDosState 1 1 where
  frequencies := fun _ _ => 3
  weights := fun _ => 1
  tetrahedronMesh := none
  sigma := some 1
  frequencyPoints := [1, 2, 3, 4, 5, 6, 7, 8]
  smearingFunction := .normal (some 1)
  dos := some [2, 8, 0, 0, 0, 0, 0, 0]
  freqDebyeCubed := none
  debyeFitCoef := none
  openmpThm := true

/-- A state with a 5-point grid (so N_fit = 1) and a computed DOS. -/
def stCex7 : TotalDosState 1 1 where
  frequencies := fun _ _ => 3
  weights := fun _ => 1
  tetrahedronMesh := none
  sigma := some 1
  frequencyPoints := [1, 2, 3, 4, 5]
  smearingFunction := .normal (some 1)
  dos := some [2, 0, 0, 0, 0]
  freqDebyeCubed := none
  debyeFitCoef := none
  openmpThm := true

/-- A state carrying a computed DOS together with a Debye-fit result. -/
def stCex8 : TotalDosState 1 1 where
  frequencies := fun _ _ => 3
  weights := fun _ => 1
  tetrahedronMesh := none
  sigma := some 1
  frequencyPoints := [0]
  smearingFunction := .normal (some 1)
  dos := some [0]
  freqDebyeCubed := some 9
  debyeFitCoef := some 2
  openmpThm := true

/-- A concrete 2-channel partial-DOS matrix. -/
def pdWit : List (List ℚ) := [[1, 2], [3, 4]]

/-- A valid index grouping over `pdWit`. -/
def idxWit : List (List ℤ) := [[0, 1]]

/-! ### Theorems -/

/-- The vector–matrix–sum computation of `_get_density_of_states_at_freq`
written as an explicit double sum over grid points and bands. -/
theorem get_density_eq {G B : ℕ} (w : Fin G → ℚ) (freqs : Fin G → Fin B → ℚ)
    (calcF : ℚ → ℚ) (f : ℚ) :
    TotalDos.get_density_of_states_at_freq w freqs calcF f
      = (∑ g, ∑ b, w g * calcF (freqs g b - f)) / ∑ g, w g := by
  unfold TotalDos.get_density_of_states_at_freq npdot
  rw [Finset.sum_comm]

/-- C1: for a mesh sample set with positive total weight, running the
total-DOS engine in smearing mode sets the DOS value at every grid frequency
point f to `Σ_g Σ_b weight[g]·kernel.calc(frequencies[g,b] − f)` divided by
the sum of the grid-point weights, the kernel being the currently selected
smearing function. -/
theorem totalDos_run_smearing_formula {G B : ℕ} (interp : SmearingFunction → ℚ → ℚ)
    (st : TotalDosState G B) (ht : st.tetrahedronMesh = none)
    (hw : 0 < ∑ g, st.weights g) :
    (TotalDos.run interp st).dos = some (st.frequencyPoints.map (fun f =>
      (∑ g, ∑ b, st.weights g * interp st.smearingFunction (st.frequencies g b - f))
        / ∑ g, st.weights g)) := by
  have hfun : TotalDos.get_density_of_states_at_freq st.weights st.frequencies
      (interp st.smearingFunction) = fun f =>
        (∑ g, ∑ b, st.weights g * interp st.smearingFunction (st.frequencies g b - f))
          / ∑ g, st.weights g :=
    funext fun f => get_density_eq _ _ _ f
  simp only [TotalDos.run, ht, hfun]

/-- Witness for C1 at the concrete state `stWitA`. -/
theorem totalDos_run_smearing_formula_witness :
    (0:ℚ) < (∑ g, stWitA.weights g) ∧
    (TotalDos.run interpOne stWitA).dos = some (stWitA.frequencyPoints.map (fun f =>
      (∑ g, ∑ b, stWitA.weights g * interpOne stWitA.smearingFunction (stWitA.frequencies g b - f))
        / ∑ g, stWitA.weights g)) := by
  have hw : (0:ℚ) < ∑ g, stWitA.weights g := by
    norm_num [stWitA, Fin.sum_univ_succ]
  exact ⟨hw, totalDos_run_smearing_formula interpOne stWitA rfl hw⟩

/-- C2: in tetrahedron mode (with the default `_openmp_thm` path), the
total-DOS engine computes `dos[f] = Σ_g Σ_b weight[g]·iw[g,b,f]` divided by
the product of the three mesh dimensions, with no additional division by the
sum of the grid-point weights. -/
theorem totalDos_run_tetrahedron_formula {G B : ℕ} (interp : SmearingFunction → ℚ → ℚ)
    (st : TotalDosState G B) (tm : TetrahedronMeshData G B)
    (ht : st.tetrahedronMesh = some tm) (ho : st.openmpThm = true) :
    (TotalDos.run interp st).dos = some (st.frequencyPoints.map (fun f =>
      (∑ g, ∑ b, st.weights g * tm.iw g b f)
        / ((tm.meshNumbers.1 * tm.meshNumbers.2.1 * tm.meshNumbers.2.2 : ℕ) : ℚ))) := by
  simp only [TotalDos.run, ht, ho, if_true]
  rfl

/-- Witness for C2 at the concrete state `stWitB`. -/
theorem totalDos_run_tetrahedron_formula_witness :
    (TotalDos.run interpOne stWitB).dos = some (stWitB.frequencyPoints.map (fun f =>
      (∑ g, ∑ b, stWitB.weights g * tmWitB.iw g b f)
        / ((tmWitB.meshNumbers.1 * tmWitB.meshNumbers.2.1 * tmWitB.meshNumbers.2.2 : ℕ) : ℚ))) :=
  totalDos_run_tetrahedron_formula interpOne stWitB tmWitB rfl rfl

/-- C8 (amended): `TotalDos.run` leaves the Debye-fit fields untouched: the
previously computed Debye frequency and fit coefficient remain retained
after the DOS is recomputed. -/
theorem run_preserves_Debye_fit {G B : ℕ} (interp : SmearingFunction → ℚ → ℚ)
    (st : TotalDosState G B) :
    (TotalDos.run interp st).freqDebyeCubed = st.freqDebyeCubed ∧
    (TotalDos.run interp st).debyeFitCoef = st.debyeFitCoef := by
  cases h : st.tetrahedronMesh <;> by_cases ho : st.openmpThm <;>
    simp [TotalDos.run, h, ho]

/-- C8 counterexample: at `stCex8`, which holds a Debye fit result
(cube 9, coefficient 2), a subsequent `run()` retains both values, so the
fit is not invalidated by recomputing the DOS. -/
theorem run_retains_Debye_fit_cex :
    (TotalDos.run interpOne stCex8).freqDebyeCubed = some 9 ∧
    (TotalDos.run interpOne stCex8).debyeFitCoef = some 2 := by
  constructor <;> rfl

/-- C9: `set_sigma` changes only the stored sigma: the frequency grid and
the smearing-function object (which captured the sigma in force when
`set_smearing_function` last ran) are unchanged, a subsequent smearing-mode
`run()` produces the same DOS, and only a new `set_smearing_function` call
picks up the new sigma. -/
theorem set_sigma_frame {G B : ℕ} (st : TotalDosState G B) (s : Option ℚ)
    (interp : SmearingFunction → ℚ → ℚ) (function_name : String) :
    (TotalDos.set_sigma st s).frequencyPoints = st.frequencyPoints ∧
    (TotalDos.set_sigma st s).smearingFunction = st.smearingFunction ∧
    (TotalDos.run interp (TotalDos.set_sigma st s)).dos = (TotalDos.run interp st).dos ∧
    (TotalDos.set_smearing_function (TotalDos.set_sigma st s) function_name).smearingFunction
      = mkSmearingFunction function_name s := by
  refine ⟨rfl, rfl, ?_, rfl⟩
  cases h : st.tetrahedronMesh <;> by_cases ho : st.openmpThm <;>
    simp [TotalDos.run, TotalDos.set_sigma, h, ho]

/-- C10: constructing a DOS engine with `use_tetrahedron_method=True` and a
non-`None` sigma creates no tetrahedron mesh and `run()` silently follows
the smearing path (for both the total and the partial engine); the
tetrahedron mesh exists if and only if `use_tetrahedron_method` is set and
sigma is `None`. -/
theorem tetrahedron_iff_thm_and_sigma_none {G B : ℕ} (mesh : MeshObject G B)
    (sigma : Option ℚ) (use_thm : Bool) (σq : ℚ)
    (interp : SmearingFunction → ℚ → ℚ) (direction : Option (ℚ × ℚ × ℚ)) :
    (TotalDos.init mesh (some σq) use_thm).tetrahedronMesh = none ∧
    (TotalDos.run interp (TotalDos.init mesh (some σq) use_thm)).dos =
      some ((TotalDos.init mesh (some σq) use_thm).frequencyPoints.map
        (TotalDos.get_density_of_states_at_freq
          (TotalDos.init mesh (some σq) use_thm).weights
          (TotalDos.init mesh (some σq) use_thm).frequencies
          (interp (TotalDos.init mesh (some σq) use_thm).smearingFunction))) ∧
    ((TotalDos.init mesh sigma use_thm).tetrahedronMesh.isSome
      = (use_thm && sigma.isNone)) ∧
    (PartialDos.init mesh (some σq) use_thm direction).tetrahedronMesh = none ∧
    (PartialDos.run interp (PartialDos.init mesh (some σq) use_thm direction)).partialDos =
      some (PartialDos.run_smearing_method interp
        (PartialDos.init mesh (some σq) use_thm direction)) := by
  have hnone : (TotalDos.init mesh (some σq) use_thm).tetrahedronMesh = none := by
    simp [TotalDos.init, TotalDos.set_smearing_function, TotalDos.set_draw_area]
  have hpnone : (PartialDos.init mesh (some σq) use_thm direction).tetrahedronMesh = none := by
    simp [PartialDos.init]
  refine ⟨hnone, ?_, ?_, hpnone, ?_⟩
  · simp only [TotalDos.run, hnone]
  · cases use_thm <;> cases sigma <;>
      simp [TotalDos.init, TotalDos.set_smearing_function, TotalDos.set_draw_area]
  · simp only [PartialDos.run, hpnone]

/-- Summing the per-channel smearing contributions over all channels removes
the projection coefficients when they are normalized, leaving the total-DOS
summand. -/
theorem channel_sum_pointwise {G B C : ℕ} (w : Fin G → ℚ) (freqs : Fin G → Fin B → ℚ)
    (eig2 : Fin G → Fin C → Fin B → ℚ) (calcF : ℚ → ℚ) (f : ℚ)
    (hnorm : ∀ g b, ∑ c, eig2 g c b = 1) :
    (∑ c, ∑ b, npdot (fun g => w g / ∑ g2, w g2)
        (fun g b2 => eig2 g c b2 * calcF (freqs g b2 - f)) b)
      = (∑ g, ∑ b, w g * calcF (freqs g b - f)) / ∑ g, w g := by
  unfold npdot
  have step1 : ∀ b : Fin B,
      (∑ c, ∑ g, (w g / ∑ g2, w g2) * (eig2 g c b * calcF (freqs g b - f)))
        = ∑ g, (w g * calcF (freqs g b - f)) / ∑ g2, w g2 := by
    intro b
    rw [Finset.sum_comm]
    refine Finset.sum_congr rfl fun g _ => ?_
    have h2 : ∀ c : Fin C,
        (w g / ∑ g2, w g2) * (eig2 g c b * calcF (freqs g b - f))
          = ((w g / ∑ g2, w g2) * calcF (freqs g b - f)) * eig2 g c b := fun c => by ring
    rw [Finset.sum_congr rfl fun c _ => h2 c, ← Finset.mul_sum, hnorm g b, mul_one,
      div_mul_eq_mul_div]
  rw [Finset.sum_comm, Finset.sum_congr rfl fun b _ => step1 b, Finset.sum_comm]
  simp only [Finset.sum_div]

/-- C3: in default isotropic projection mode, when the squared eigenvector
components sum to 1 over channels at every (grid point, band), the sum of
the partial-DOS rows over all channels equals the total DOS at every
frequency point, for both engines run on the same mesh, grid and kernel. -/
theorem partialDos_channel_sum_eq_totalDos {G B C : ℕ}
    (interp : SmearingFunction → ℚ → ℚ)
    (ps : PartialDosState G B C) (ts : TotalDosState G B)
    (hw : ps.weights = ts.weights) (hf : ps.frequencies = ts.frequencies)
    (hp : ps.frequencyPoints = ts.frequencyPoints)
    (hs : ps.smearingFunction = ts.smearingFunction)
    (hpt : ps.tetrahedronMesh = none) (htt : ts.tetrahedronMesh = none)
    (hnorm : ∀ g b, ∑ c, ps.eigvecs2 g c b = 1) :
    ∀ P D, (PartialDos.run interp ps).partialDos = some P →
      (TotalDos.run interp ts).dos = some D →
      ∀ k, (∑ c, (P c).getD k 0) = D.getD k 0 := by
  intro P D hP hD k
  simp only [PartialDos.run, hpt] at hP
  simp only [TotalDos.run, htt] at hD
  have hP2 : P = PartialDos.run_smearing_method interp ps := (Option.some.inj hP).symm
  have hD2 : D = ts.frequencyPoints.map (TotalDos.get_density_of_states_at_freq
      ts.weights ts.frequencies (interp ts.smearingFunction)) := (Option.some.inj hD).symm
  subst hP2 hD2
  simp only [PartialDos.run_smearing_method, hp, hw, hf, hs]
  simp only [List.getD_eq_getElem?_getD, List.getElem?_map]
  cases hk : ts.frequencyPoints[k]? with
  | none => simp [hk]
  | some f =>
    simp only [hk, Option.map_some', Option.getD_some]
    rw [get_density_eq]
    exact channel_sum_pointwise ts.weights ts.frequencies ps.eigvecs2
      (interp ts.smearingFunction) f hnorm

/-- Witness for C3 at the concrete states `psWitC` and `tsWitC`. -/
theorem partialDos_channel_sum_eq_totalDos_witness :
    (∑ c, ((PartialDos.run_smearing_method interpOne psWitC) c).getD 0 0)
      = (tsWitC.frequencyPoints.map (TotalDos.get_density_of_states_at_freq
          tsWitC.weights tsWitC.frequencies (interpOne tsWitC.smearingFunction))).getD 0 0 :=
  partialDos_channel_sum_eq_totalDos interpOne psWitC tsWitC rfl rfl rfl rfl rfl rfl
    (fun g b => by norm_num [psWitC, Fin.sum_univ_succ]) _ _ rfl rfl 0

/-- C4: with no overrides and sigma unset, `set_draw_area` defaults sigma to
(max − min)/100, margins each side by 10σ, uses pitch = margined range / 200,
and produces a strictly increasing 201-point grid whose first point is the
margined minimum and whose last point is the margined maximum. -/
theorem set_draw_area_default_grid {G B : ℕ} (st : TotalDosState G B)
    (hσ : st.sigma = none)
    (hlt : listMin (freqFlat st.frequencies) < listMax (freqFlat st.frequencies)) :
    (TotalDos.set_draw_area st none none none).sigma
      = some (defaultSigma (freqFlat st.frequencies)) ∧
    (TotalDos.set_draw_area st none none none).frequencyPoints
      = (List.range 201).map (fun i : ℕ =>
          marginedMin (freqFlat st.frequencies)
            + (i : ℚ) * defaultPitch (freqFlat st.frequencies)) ∧
    List.Pairwise (· < ·) (TotalDos.set_draw_area st none none none).frequencyPoints ∧
    (TotalDos.set_draw_area st none none none).frequencyPoints.head?
      = some (marginedMin (freqFlat st.frequencies)) ∧
    (TotalDos.set_draw_area st none none none).frequencyPoints.getLast?
      = some (marginedMax (freqFlat st.frequencies)) := by
  simp only [TotalDos.set_draw_area, hσ]
  generalize hFL : freqFlat st.frequencies = fl at hlt ⊢
  have hr : 0 < listMax fl - listMin fl := sub_pos.mpr hlt
  have hσpos : 0 < defaultSigma fl := div_pos hr (by norm_num)
  have hsp : 0 < marginedMax fl - marginedMin fl := by
    unfold marginedMax marginedMin; nlinarith [hσpos, hr]
  have hδpos : 0 < defaultPitch fl := div_pos hsp (by norm_num)
  have hspan : marginedMax fl - marginedMin fl = 200 * defaultPitch fl := by
    unfold defaultPitch; ring
  have hcore : set_draw_area_core fl none none none none
      = (defaultSigma fl,
         np_arange (marginedMin fl) (marginedMax fl + defaultPitch fl * (1 / 10))
           (defaultPitch fl)) := rfl
  have hn : (⌈((marginedMax fl + defaultPitch fl * (1 / 10)) - marginedMin fl)
      / defaultPitch fl⌉).toNat = 201 := by
    have hδ : defaultPitch fl ≠ 0 := ne_of_gt hδpos
    have hratio : ((marginedMax fl + defaultPitch fl * (1 / 10)) - marginedMin fl)
        / defaultPitch fl = 2001 / 10 := by
      rw [show (marginedMax fl + defaultPitch fl * (1 / 10)) - marginedMin fl
          = 200 * defaultPitch fl + defaultPitch fl * (1 / 10) by linarith [hspan]]
      field_simp
      ring
    rw [hratio, show ⌈(2001:ℚ)/10⌉ = 201 by rw [Int.ceil_eq_iff] <;> norm_num]
    rfl
  have hgrid : np_arange (marginedMin fl) (marginedMax fl + defaultPitch fl * (1 / 10))
      (defaultPitch fl)
      = (List.range 201).map (fun i : ℕ => marginedMin fl + (i : ℚ) * defaultPitch fl) := by
    unfold np_arange
    rw [if_pos hδpos, hn]
  rw [hcore, hgrid]
  refine ⟨rfl, rfl, ?_, ?_, ?_⟩
  · refine (List.pairwise_lt_range 201).map _ fun i j hij => ?_
    have hc : (i:ℚ) < j := by exact_mod_cast hij
    have := mul_lt_mul_of_pos_right hc hδpos
    linarith
  · rw [show (201:ℕ) = 200 + 1 from rfl, List.range_succ_eq_map]
    simp
  · rw [show (201:ℕ) = 200 + 1 from rfl, List.range_succ, List.map_append]
    rw [show ((([200] : List ℕ)).map fun i : ℕ => marginedMin fl + (i : ℚ) * defaultPitch fl)
        = [marginedMin fl + 200 * defaultPitch fl] by norm_num]
    rw [List.getLast?_concat]
    have heq : marginedMin fl + 200 * defaultPitch fl = marginedMax fl := by linarith [hspan]
    rw [heq]

/-- Witness for C4 at the concrete state `stWitD` (frequencies 0 and 100). -/
theorem set_draw_area_default_grid_witness :
    (TotalDos.set_draw_area stWitD none none none).frequencyPoints.head?
      = some (marginedMin (freqFlat stWitD.frequencies)) ∧
    (TotalDos.set_draw_area stWitD none none none).frequencyPoints.getLast?
      = some (marginedMax (freqFlat stWitD.frequencies)) ∧
    List.Pairwise (· < ·) (TotalDos.set_draw_area stWitD none none none).frequencyPoints :=
  have h := set_draw_area_default_grid stWitD rfl (by
    norm_num [stWitD, freqFlat, listMin, listMax, List.finRange_succ_eq_map])
  ⟨h.2.2.2.1, h.2.2.2.2, h.2.2.1⟩

/-- The residual sum of the a·f² model expanded into its three moment sums. -/
theorem errSq_expand (pts : List (ℚ × ℚ)) (a : ℚ) :
    errSq pts a = (pts.map (fun p => p.2 ^ 2)).sum
      - 2 * a * (pts.map (fun p => p.1 ^ 2 * p.2)).sum
      + a ^ 2 * (pts.map (fun p => p.1 ^ 4)).sum := by
  induction pts with
  | nil => simp [errSq]
  | cons p l ih =>
    simp only [errSq, List.map_cons, List.sum_cons] at ih ⊢
    rw [ih]
    ring

/-- The fourth-moment sum is nonnegative. -/
theorem sumPow4_nonneg (pts : List (ℚ × ℚ)) : 0 ≤ (pts.map (fun p => p.1 ^ 4)).sum := by
  induction pts with
  | nil => simp
  | cons p l ih =>
    simp only [List.map_cons, List.sum_cons]
    have hp : (0:ℚ) ≤ p.1 ^ 4 := by positivity
    linarith

/-- If the fourth-moment sum vanishes, every abscissa is zero, so the mixed
moment vanishes too. -/
theorem sumPow4_eq_zero (pts : List (ℚ × ℚ))
    (h : (pts.map (fun p => p.1 ^ 4)).sum = 0) :
    (pts.map (fun p => p.1 ^ 2 * p.2)).sum = 0 := by
  induction pts with
  | nil => simp
  | cons p l ih =>
    simp only [List.map_cons, List.sum_cons] at h ⊢
    have h4 : (0:ℚ) ≤ p.1 ^ 4 := by positivity
    have hrest := sumPow4_nonneg l
    have hp4 : p.1 ^ 4 = 0 := by linarith
    have hp1 : p.1 = 0 := pow_eq_zero_iff (by norm_num) |>.mp hp4
    have hsum : (l.map (fun p => p.1 ^ 4)).sum = 0 := by linarith
    rw [hp1, ih hsum]
    ring

/-- `fitA` is the least-squares optimum of the a·f² model. -/
theorem fitA_optimal (pts : List (ℚ × ℚ)) (a : ℚ) :
    errSq pts (fitA pts) ≤ errSq pts a := by
  have hfa : fitA pts
      = (pts.map (fun p => p.1 ^ 2 * p.2)).sum / (pts.map (fun p => p.1 ^ 4)).sum := rfl
  rcases eq_or_lt_of_le (sumPow4_nonneg pts) with h0 | hpos
  · have h2 : (pts.map (fun p => p.1 ^ 2 * p.2)).sum = 0 := sumPow4_eq_zero pts h0.symm
    rw [errSq_expand, errSq_expand, h2, ← h0]
    linarith
  · rw [errSq_expand, errSq_expand, hfa]
    set S4 := (pts.map (fun p => p.1 ^ 4)).sum with hS4
    set S2y := (pts.map (fun p => p.1 ^ 2 * p.2)).sum with hS2y
    set Sy := (pts.map (fun p => p.2 ^ 2)).sum with hSy
    have hne : S4 ≠ 0 := ne_of_gt hpos
    have key : Sy - 2 * a * S2y + a ^ 2 * S4
        - (Sy - 2 * (S2y / S4) * S2y + (S2y / S4) ^ 2 * S4)
        = S4 * (a - S2y / S4) ^ 2 := by
      field_simp
      ring
    nlinarith [mul_nonneg hpos.le (sq_nonneg (a - S2y / S4))]

/-- C5: the Debye fit uses `N_fit = ⌊len(grid)/4⌋` by default and
`⌊freq_max_fit/(freq_max − freq_min)·len(grid)⌋` with a cutoff, fits
`dos(f) = a·f²` by least squares over the first `N_fit` points (the stored
coefficient minimizes the squared residuals), and derives the Debye
frequency as `(9·num_atoms/a)^(1/3)` (stored as its cube). -/
theorem set_Debye_frequency_least_squares {G B : ℕ} (st : TotalDosState G B)
    (num_atoms : ℕ) (freq_max_fit : Option ℚ) (d : List ℚ)
    (hd : st.dos = some d)
    (hnn : 0 ≤ TotalDos.debyeArg st freq_max_fit)
    (hlen : 1 ≤ (TotalDos.debyeFitPoints st freq_max_fit d).length) :
    TotalDos.debyeNfit st freq_max_fit = ⌊TotalDos.debyeArg st freq_max_fit⌋ ∧
    TotalDos.set_Debye_frequency st num_atoms freq_max_fit
      = .ok {st with
          freqDebyeCubed := some (3 * 3 * num_atoms /
            fitA (TotalDos.debyeFitPoints st freq_max_fit d))
          debyeFitCoef := some (fitA (TotalDos.debyeFitPoints st freq_max_fit d))} ∧
    ∀ a, errSq (TotalDos.debyeFitPoints st freq_max_fit d)
        (fitA (TotalDos.debyeFitPoints st freq_max_fit d))
      ≤ errSq (TotalDos.debyeFitPoints st freq_max_fit d) a := by
  refine ⟨?_, ?_, fun a => fitA_optimal _ a⟩
  · unfold TotalDos.debyeNfit pyint
    rw [if_pos hnn]
  · unfold TotalDos.debyeFitPoints at hlen
    simp only [TotalDos.set_Debye_frequency, hd]
    have hcf : curve_fit_Debye
        ((pytake (TotalDos.debyeNfit st freq_max_fit) st.frequencyPoints).zip
          (pytake (TotalDos.debyeNfit st freq_max_fit) d))
        = .ok (fitA (TotalDos.debyeFitPoints st freq_max_fit d)) := by
      unfold curve_fit_Debye
      rw [if_neg (by omega)]
      rfl
    rw [hcf]

/-- Witness for C5 at the concrete state `stWitE` (8 grid points, default
N_fit = 2, fit data (1, 2) and (2, 8)). -/
theorem set_Debye_frequency_least_squares_witness :
    TotalDos.debyeNfit stWitE none = ⌊TotalDos.debyeArg stWitE none⌋ ∧
    TotalDos.set_Debye_frequency stWitE 1 none
      = .ok {stWitE with
          freqDebyeCubed := some (3 * 3 * (1:ℕ) /
            fitA (TotalDos.debyeFitPoints stWitE none [2, 8, 0, 0, 0, 0, 0, 0]))
          debyeFitCoef := some (fitA (TotalDos.debyeFitPoints stWitE none
            [2, 8, 0, 0, 0, 0, 0, 0]))} ∧
    errSq (TotalDos.debyeFitPoints stWitE none [2, 8, 0, 0, 0, 0, 0, 0])
        (fitA (TotalDos.debyeFitPoints stWitE none [2, 8, 0, 0, 0, 0, 0, 0]))
      ≤ errSq (TotalDos.debyeFitPoints stWitE none [2, 8, 0, 0, 0, 0, 0, 0]) 3 :=
  have h := set_Debye_frequency_least_squares stWitE 1 none [2, 8, 0, 0, 0, 0, 0, 0] rfl
    (by norm_num [TotalDos.debyeArg, stWitE])
    (by norm_num [TotalDos.debyeFitPoints, TotalDos.debyeNfit, TotalDos.debyeArg, pyint,
      pytake, stWitE])
  ⟨h.1, h.2.1, h.2.2 3⟩

/-- C7 counterexample: at `stCex7` the grid has 5 points, so `N_fit = 1 < 2`,
yet the Debye fit succeeds (single-point least squares is determined),
producing coefficient 2 and Debye-frequency cube 9 instead of raising. -/
theorem set_Debye_nfit_one_ok_cex :
    TotalDos.debyeNfit stCex7 none < 2 ∧
    TotalDos.set_Debye_frequency stCex7 2 none
      = .ok {stCex7 with freqDebyeCubed := some 9, debyeFitCoef := some 2} := by
  have harg : TotalDos.debyeNfit stCex7 none = 1 := by
    norm_num [TotalDos.debyeNfit, TotalDos.debyeArg, pyint, stCex7]
  refine ⟨by rw [harg]; norm_num, ?_⟩
  have hpts : (pytake (TotalDos.debyeNfit stCex7 none) stCex7.frequencyPoints).zip
      (pytake (TotalDos.debyeNfit stCex7 none) ([2, 0, 0, 0, 0] : List ℚ))
      = [((1:ℚ), (2:ℚ))] := by
    rw [harg]
    rfl
  have hcf : curve_fit_Debye [((1:ℚ), (2:ℚ))] = .ok 2 := by
    unfold curve_fit_Debye fitA
    norm_num
  simp only [TotalDos.set_Debye_frequency,
    show stCex7.dos = some [(2:ℚ), 0, 0, 0, 0] from rfl, hpts, hcf]
  have hval : (3 * 3 * ((2:ℕ):ℚ) / 2) = 9 := by norm_num
  rw [hval]

/-- C7 (amended): the Debye fit errors exactly when the fit data slice
`frequency_points[0:N_fit]` (zipped with the DOS values) is empty — the DOS
has never been computed, `N_fit = 0`, or a negative `N_fit` whose Python
slice drops every element.  In particular a single fit point (`N_fit = 1`)
determines the one-parameter fit, which succeeds and produces a Debye
frequency instead of raising. -/
theorem set_Debye_ok_iff {G B : ℕ} (st : TotalDosState G B) (num_atoms : ℕ)
    (freq_max_fit : Option ℚ) :
    (TotalDos.set_Debye_frequency st num_atoms freq_max_fit).isOk = true
      ↔ ∃ d, st.dos = some d ∧
          1 ≤ (TotalDos.debyeFitPoints st freq_max_fit d).length := by
  cases hd : st.dos with
  | none => simp [TotalDos.set_Debye_frequency, hd, Except.isOk, Except.toBool]
  | some d =>
    simp only [TotalDos.set_Debye_frequency, hd]
    unfold curve_fit_Debye
    by_cases hL : ((pytake (TotalDos.debyeNfit st freq_max_fit) st.frequencyPoints).zip
        (pytake (TotalDos.debyeNfit st freq_max_fit) d)).length < 1
    · rw [if_pos hL]
      simp only [Except.isOk, Except.toBool, TotalDos.debyeFitPoints]
      constructor
      · intro h
        exact absurd h (by simp)
      · rintro ⟨d2, hd2, hlen2⟩
        cases hd2
        omega
    · rw [if_neg hL]
      simp only [Except.isOk, Except.toBool]
      constructor
      · intro _
        exact ⟨d, rfl, by unfold TotalDos.debyeFitPoints; omega⟩
      · intro _
        trivial

/-- A negative fit cutoff produces a negative `N_fit`, whose Python slice
keeps all but the trailing `|N_fit|` elements: on the 5-point grid of
`stCex7`, `freq_max_fit = -1` gives `N_fit = -1` and the fit still succeeds
on the remaining 4 points. -/
theorem set_Debye_negative_cutoff_ok :
    TotalDos.debyeNfit stCex7 (some (-1)) = -1 ∧
    (pytake (TotalDos.debyeNfit stCex7 (some (-1))) stCex7.frequencyPoints).length = 4 ∧
    (TotalDos.set_Debye_frequency stCex7 2 (some (-1))).isOk = true := by
  have ha : TotalDos.debyeArg stCex7 (some (-1)) = -5/4 := by
    unfold TotalDos.debyeArg
    norm_num [stCex7, listMax, listMin, List.foldl, max_def, min_def]
  have hN : TotalDos.debyeNfit stCex7 (some (-1)) = -1 := by
    unfold TotalDos.debyeNfit pyint
    rw [ha, if_neg (by norm_num)]
    rw [Int.ceil_eq_iff]
    norm_num
  refine ⟨hN, by rw [hN]; rfl, ?_⟩
  have hp : (pytake (TotalDos.debyeNfit stCex7 (some (-1))) stCex7.frequencyPoints).zip
      (pytake (TotalDos.debyeNfit stCex7 (some (-1))) ([2, 0, 0, 0, 0] : List ℚ))
      = [((1:ℚ), (2:ℚ)), (2, 0), (3, 0), (4, 0)] := by
    rw [hN]
    rfl
  simp only [TotalDos.set_Debye_frequency,
    show stCex7.dos = some [(2:ℚ), 0, 0, 0, 0] from rfl, hp]
  rfl

/-- The per-group summation succeeds exactly when every index of the group
is a valid 0-based channel index. -/
theorem sumGroup_ok_iff (pd : List (List ℚ)) (acc : Option (List ℚ)) (g : List ℤ) :
    (∃ v, sumGroup pd acc g = .ok v) ↔ ∀ i ∈ g, 0 ≤ i ∧ i < (pd.length : ℤ) := by
  induction g generalizing acc with
  | nil => simp [sumGroup]
  | cons i rest ih =>
    simp only [sumGroup, List.forall_mem_cons]
    by_cases h1 : i > (pd.length : ℤ) - 1
    · rw [if_pos h1]
      constructor
      · rintro ⟨v, hv⟩
        simp at hv
      · rintro ⟨⟨hge, hlt⟩, _⟩
        exact absurd hlt (by omega)
    · rw [if_neg h1]
      by_cases h2 : i < 0
      · rw [if_pos h2]
        constructor
        · rintro ⟨v, hv⟩
          simp at hv
        · rintro ⟨⟨hge, hlt⟩, _⟩
          exact absurd hge (by omega)
      · rw [if_neg h2, ih]
        constructor
        · intro hall
          exact ⟨⟨by omega, by omega⟩, hall⟩
        · rintro ⟨_, hall⟩
          exact hall

/-- When the per-group summation fails, the error is the one the source
raises for some invalid index of the group: out-of-range (checked first) or
negative, reporting the 1-based index. -/
theorem sumGroup_error_char (pd : List (List ℚ)) (g : List ℤ) :
    ∀ (acc : Option (List ℚ)) (e : IndexErr), sumGroup pd acc g = .error e →
      ∃ i ∈ g, ¬(0 ≤ i ∧ i < (pd.length : ℤ)) ∧ e = mkIndexError pd.length i := by
  induction g with
  | nil =>
    intro acc e he
    simp [sumGroup] at he
  | cons i rest ih =>
    intro acc e he
    simp only [sumGroup] at he
    by_cases h1 : i > (pd.length : ℤ) - 1
    · rw [if_pos h1] at he
      refine ⟨i, List.mem_cons_self _ _, by omega, ?_⟩
      rw [mkIndexError, if_pos h1]
      exact (Except.error.inj he).symm
    · rw [if_neg h1] at he
      by_cases h2 : i < 0
      · rw [if_pos h2] at he
        refine ⟨i, List.mem_cons_self _ _, by omega, ?_⟩
        rw [mkIndexError, if_neg h1]
        exact (Except.error.inj he).symm
      · rw [if_neg h2] at he
        obtain ⟨j, hj, hinv, hej⟩ := ih _ e he
        exact ⟨j, List.mem_cons_of_mem _ hj, hinv, hej⟩

/-- `get_pdos` succeeds exactly when every supplied index is valid. -/
theorem get_pdos_ok_iff (pd : List (List ℚ)) (idx : List (List ℤ)) :
    (get_pdos pd idx).isOk = true
      ↔ ∀ g ∈ idx, ∀ i ∈ g, 0 ≤ i ∧ i < (pd.length : ℤ) := by
  induction idx with
  | nil => simp [get_pdos, Except.isOk, Except.toBool]
  | cons g gs ih =>
    simp only [get_pdos, List.forall_mem_cons]
    cases hg : sumGroup pd none g with
    | error e =>
      simp only [Except.isOk, Except.toBool]
      constructor
      · intro h
        exact absurd h (by simp)
      · rintro ⟨hgv, _⟩
        obtain ⟨v, hv⟩ := (sumGroup_ok_iff pd none g).mpr hgv
        rw [hg] at hv
        simp at hv
    | ok v =>
      cases hr : get_pdos pd gs with
      | error e2 =>
        simp only [Except.isOk, Except.toBool]
        constructor
        · intro h
          exact absurd h (by simp)
        · rintro ⟨_, hrest⟩
          have hok : (get_pdos pd gs).isOk = true := ih.mpr hrest
          rw [hr] at hok
          simp [Except.isOk, Except.toBool] at hok
      | ok vs =>
        simp only [Except.isOk, Except.toBool]
        constructor
        · intro _
          refine ⟨(sumGroup_ok_iff pd none g).mp ⟨v, hg⟩, ih.mp ?_⟩
          rw [hr]
          rfl
        · intro _
          trivial

/-- When `get_pdos` fails, the reported error matches some invalid index of
some supplied group. -/
theorem get_pdos_error_char (pd : List (List ℚ)) (idx : List (List ℤ)) :
    ∀ e, get_pdos pd idx = .error e →
      ∃ g ∈ idx, ∃ i ∈ g, ¬(0 ≤ i ∧ i < (pd.length : ℤ)) ∧ e = mkIndexError pd.length i := by
  induction idx with
  | nil =>
    intro e he
    simp [get_pdos] at he
  | cons g gs ih =>
    intro e he
    simp only [get_pdos] at he
    cases hg : sumGroup pd none g with
    | error e2 =>
      rw [hg] at he
      have he2 : e2 = e := Except.error.inj he
      obtain ⟨i, hi, hinv, hei⟩ := sumGroup_error_char pd g none e2 hg
      exact ⟨g, List.mem_cons_self _ _, i, hi, hinv, he2 ▸ hei⟩
    | ok v =>
      rw [hg] at he
      cases hr : get_pdos pd gs with
      | error e2 =>
        rw [hr] at he
        have he2 : e2 = e := Except.error.inj he
        obtain ⟨g2, hg2, i, hi, hinv, hei⟩ := ih e2 hr
        exact ⟨g2, List.mem_cons_of_mem _ hg2, i, hi, hinv, he2 ▸ hei⟩
      | ok vs =>
        rw [hr] at he
        simp at he

/-- `plot_partial_dos`'s grouping loop succeeds exactly when every supplied
index is valid. -/
theorem plotCurves_ok_iff (pd : List (List ℚ)) (idx : List (List ℤ)) :
    (plot_partial_dos_curves pd idx).isOk = true
      ↔ ∀ g ∈ idx, ∀ i ∈ g, 0 ≤ i ∧ i < (pd.length : ℤ) := by
  induction idx with
  | nil => simp [plot_partial_dos_curves, Except.isOk, Except.toBool]
  | cons g gs ih =>
    simp only [plot_partial_dos_curves, List.forall_mem_cons]
    cases hg : sumGroup pd none g with
    | error e =>
      simp only [Except.isOk, Except.toBool]
      constructor
      · intro h
        exact absurd h (by simp)
      · rintro ⟨hgv, _⟩
        obtain ⟨v, hv⟩ := (sumGroup_ok_iff pd none g).mpr hgv
        rw [hg] at hv
        simp at hv
    | ok v =>
      cases hr : plot_partial_dos_curves pd gs with
      | error e2 =>
        simp only [Except.isOk, Except.toBool]
        constructor
        · intro h
          exact absurd h (by simp)
        · rintro ⟨_, hrest⟩
          have hok : (plot_partial_dos_curves pd gs).isOk = true := ih.mpr hrest
          rw [hr] at hok
          simp [Except.isOk, Except.toBool] at hok
      | ok vs =>
        simp only [Except.isOk, Except.toBool]
        constructor
        · intro _
          refine ⟨(sumGroup_ok_iff pd none g).mp ⟨v, hg⟩, ih.mp ?_⟩
          rw [hr]
          rfl
        · intro _
          trivial

/-- When `plot_partial_dos`'s grouping loop fails, the reported error
matches some invalid index of some supplied group. -/
theorem plotCurves_error_char (pd : List (List ℚ)) (idx : List (List ℤ)) :
    ∀ e, plot_partial_dos_curves pd idx = .error e →
      ∃ g ∈ idx, ∃ i ∈ g, ¬(0 ≤ i ∧ i < (pd.length : ℤ)) ∧ e = mkIndexError pd.length i := by
  induction idx with
  | nil =>
    intro e he
    simp [plot_partial_dos_curves] at he
  | cons g gs ih =>
    intro e he
    simp only [plot_partial_dos_curves] at he
    cases hg : sumGroup pd none g with
    | error e2 =>
      rw [hg] at he
      have he2 : e2 = e := Except.error.inj he
      obtain ⟨i, hi, hinv, hei⟩ := sumGroup_error_char pd g none e2 hg
      exact ⟨g, List.mem_cons_self _ _, i, hi, hinv, he2 ▸ hei⟩
    | ok v =>
      rw [hg] at he
      cases hr : plot_partial_dos_curves pd gs with
      | error e2 =>
        rw [hr] at he
        have he2 : e2 = e := Except.error.inj he
        obtain ⟨g2, hg2, i, hi, hinv, hei⟩ := ih e2 hr
        exact ⟨g2, List.mem_cons_of_mem _ hg2, i, hi, hinv, he2 ▸ hei⟩
      | ok vs =>
        rw [hr] at he
        simp at he

/-- C6: for both `get_pdos` and the `plot_partial_dos` grouping loop, the
call succeeds (producing the aggregated rows) if and only if every supplied
index lies in [0, num_channels); otherwise the call aborts with the error
the source raises for an invalid index — out-of-range (checked first) or
negative — reporting the 1-based index `i + 1`, and no aggregated output is
returned. -/
theorem index_grouping_validation (pd : List (List ℚ)) (idx : List (List ℤ)) :
    ((get_pdos pd idx).isOk = true
      ↔ ∀ g ∈ idx, ∀ i ∈ g, 0 ≤ i ∧ i < (pd.length : ℤ)) ∧
    ((plot_partial_dos_curves pd idx).isOk = true
      ↔ ∀ g ∈ idx, ∀ i ∈ g, 0 ≤ i ∧ i < (pd.length : ℤ)) ∧
    (∀ e, get_pdos pd idx = .error e →
      ∃ g ∈ idx, ∃ i ∈ g, ¬(0 ≤ i ∧ i < (pd.length : ℤ))
        ∧ e = mkIndexError pd.length i) ∧
    (∀ e, plot_partial_dos_curves pd idx = .error e →
      ∃ g ∈ idx, ∃ i ∈ g, ¬(0 ≤ i ∧ i < (pd.length : ℤ))
        ∧ e = mkIndexError pd.length i) :=
  ⟨get_pdos_ok_iff pd idx, plotCurves_ok_iff pd idx,
   get_pdos_error_char pd idx, plotCurves_error_char pd idx⟩

/-- Witness for C6 at the concrete matrix `pdWit` and valid grouping
`idxWit`. -/
theorem index_grouping_validation_witness :
    (get_pdos pdWit idxWit).isOk = true ∧
    (plot_partial_dos_curves pdWit idxWit).isOk = true :=
  ⟨(index_grouping_validation pdWit idxWit).1.mpr (by decide),
   (index_grouping_validation pdWit idxWit).2.1.mpr (by decide)⟩

end PhononDos
